import Mathlib

/-!
Verification of the color-mixing search core of `uhhhhh.py` (the "Dye Doxxer"
application).  The core consists of the mask arithmetic (`clamp255`,
`dye_vector`, `apply_dye_to_mask`, `apply_mask_to_color`, `manhattan`) and the
breadth-first search `find_sequence_to_target` over the mask state space.

The Python functions are embedded shallowly:
* Python integers become `ℤ`;
* the process-wide mutable `app.config` dictionary becomes an explicit
  `AppConfig` value threaded into every function that reads it
  (`apply_dye_to_mask` reads `ADD_VALUE`/`SUB_VALUE`, the search reads
  `START_RGB` and `MAX_DEPTH`);
* the `while q:` loop becomes a fuel-indexed recursion `bfsRun`; the fuel
  `SEARCH_FUEL` is proved sufficient (`bfsRun_isSome_of_measure`), so the
  fuel-exhaustion branch of `find_sequence_to_target` is dead code;
* in addition to the best-so-far result the loop also returns the list of
  dequeued nodes in order (the trace); the Python loop's observable dequeue
  history, needed for the temporal properties, is exactly this list.
-/

set_option maxRecDepth 8000

/-- A color or mask channel triple, Python `(r, g, b)` of ints. -/
abbrev Color : Type := ℤ × ℤ × ℤ

/-- A mask is also an integer triple; the identity mask is `(255, 255, 255)`. -/
abbrev Mask : Type := ℤ × ℤ × ℤ

/-- The four dye tokens `DYES = ["red", "green", "blue", "black"]`, as a
closed enumeration (the `raise ValueError("unknown dye")` branch of
`dye_vector` is unreachable for these four tokens). -/
inductive Dye : Type
  | red
  | green
  | blue
  | black
deriving DecidableEq, Repr

/-- The list `DYES`, in the iteration order of the Python source. -/
def DYES : List Dye := [Dye.red, Dye.green, Dye.blue, Dye.black]

/-- Python: `def clamp255(x): return max(0, min(255, x))`. -/
def clamp255 (x : ℤ) : ℤ := max 0 (min 255 x)

/-- Python `dye_vector(dye, add_val, sub_val)`. -/
def dye_vector (dye : Dye) (add_val sub_val : ℤ) : ℤ × ℤ × ℤ :=
  match dye with
  | Dye.red => (add_val, -sub_val, -sub_val)
  | Dye.green => (-sub_val, add_val, -sub_val)
  | Dye.blue => (-sub_val, -sub_val, add_val)
  | Dye.black => (-32, -32, -32)

/-- The mutable `app.config` dictionary of the Flask app, made explicit. -/
structure AppConfig : Type where
  START_RGB : Color
  ADD_VALUE : ℤ
  SUB_VALUE : ℤ
  MAX_DEPTH : ℤ
deriving DecidableEq, Repr

/-- The configuration installed by `app.config.update({...})` at module load. -/
def defaultConfig : AppConfig := ⟨(241, 219, 29), 32, 16, 48⟩

/-- Python `apply_dye_to_mask(mask, dye)`; it reads `ADD_VALUE` and
`SUB_VALUE` from `app.config`, here passed as `cfg`. -/
def apply_dye_to_mask (cfg : AppConfig) (mask : Mask) (dye : Dye) : Mask :=
  (clamp255 (mask.1 + (dye_vector dye cfg.ADD_VALUE cfg.SUB_VALUE).1),
   clamp255 (mask.2.1 + (dye_vector dye cfg.ADD_VALUE cfg.SUB_VALUE).2.1),
   clamp255 (mask.2.2 + (dye_vector dye cfg.ADD_VALUE cfg.SUB_VALUE).2.2))

/-- Python `int(round(num / 255.0))`, the per-channel rounding of
`apply_mask_to_color`, as exact integer arithmetic: the integer nearest to
`num / 255`, with `Int.fdiv` (floor division) realizing round-half-up.
A tie `num / 255 = k + 1/2` would require `2 * num + 255 ≡ 0 (mod 510)`,
impossible because `2 * num + 255` is odd; hence round-half-up coincides
with Python's round-half-to-even here, and the float quotient
`num / 255.0` (with `|num| ≤ 255 * 255` in every reachable call) is far too
close to the exact rational for double rounding to move it across a
half-integer boundary. -/
def round_div255 (num : ℤ) : ℤ := Int.fdiv (2 * num + 255) 510

/-- Python `apply_mask_to_color(base_rgb, mask)`:
channel-wise `clamp255(int(round(base * mask / 255.0)))`. -/
def apply_mask_to_color (base_rgb : Color) (mask : Mask) : Color :=
  (clamp255 (round_div255 (base_rgb.1 * mask.1)),
   clamp255 (round_div255 (base_rgb.2.1 * mask.2.1)),
   clamp255 (round_div255 (base_rgb.2.2 * mask.2.2)))

/-- Python `manhattan(a, b)`. -/
def manhattan (a b : Color) : ℤ :=
  |a.1 - b.1| + |a.2.1 - b.2.1| + |a.2.2 - b.2.2|

/-- A queue entry of the BFS: a mask together with the dye sequence that
produced it (the Python pair `(mask, seq)`). -/
abbrev Node : Type := Mask × List Dye

/-- The four components returned by `find_sequence_to_target`:
`(best_seq, best_mask, best_color, best_diff)`. -/
structure SearchResult : Type where
  seq : List Dye
  mask : Mask
  color : Color
  diff : ℤ
deriving DecidableEq, Repr

/-- One step of the `for dye in DYES:` loop at the bottom of the search loop:
if the successor mask is unvisited, mark it visited and append it to the
queue; the accumulator is the pair (queue, visited). -/
def enqueueDye (cfg : AppConfig) (mask : Mask) (seq : List Dye)
    (acc : List Node × Finset Mask) (dye : Dye) : List Node × Finset Mask :=
  if apply_dye_to_mask cfg mask dye ∈ acc.2 then acc
  else (acc.1 ++ [(apply_dye_to_mask cfg mask dye, seq ++ [dye])],
        insert (apply_dye_to_mask cfg mask dye) acc.2)

/-- The whole `for dye in DYES:` expansion of a dequeued node. -/
def expand (cfg : AppConfig) (mask : Mask) (seq : List Dye)
    (q : List Node) (visited : Finset Mask) : List Node × Finset Mask :=
  DYES.foldl (enqueueDye cfg mask seq) (q, visited)

/-- The `while q:` loop of `find_sequence_to_target`, as a fuel-indexed
recursion.  Besides the best-so-far `SearchResult` it returns the list of
dequeued nodes in dequeue order (the trace).  `none` means the fuel ran out
with a non-empty queue; `SEARCH_FUEL` is proved large enough for this never
to happen from the search's start state. -/
def bfsRun (cfg : AppConfig) (target : Color) (maxd : ℤ) :
    Nat → List Node → Finset Mask → SearchResult →
    Option (SearchResult × List Node)
  | 0, q, _, best => if q.isEmpty then some (best, []) else none
  | _ + 1, [], _, best => some (best, [])
  | n + 1, (mask, seq) :: rest, visited, best =>
    if (seq.length : ℤ) > maxd then
      Option.map (fun r => (r.1, (mask, seq) :: r.2))
        (bfsRun cfg target maxd n rest visited best)
    else if manhattan (apply_mask_to_color cfg.START_RGB mask) target < best.diff ∧
            manhattan (apply_mask_to_color cfg.START_RGB mask) target = 0 then
      some (⟨seq, mask, apply_mask_to_color cfg.START_RGB mask,
             manhattan (apply_mask_to_color cfg.START_RGB mask) target⟩,
            [(mask, seq)])
    else
      Option.map (fun r => (r.1, (mask, seq) :: r.2))
        (bfsRun cfg target maxd n
          (expand cfg mask seq rest visited).1
          (expand cfg mask seq rest visited).2
          (if manhattan (apply_mask_to_color cfg.START_RGB mask) target < best.diff then
            ⟨seq, mask, apply_mask_to_color cfg.START_RGB mask,
             manhattan (apply_mask_to_color cfg.START_RGB mask) target⟩
          else best))

/-- `256 ^ 3`: enough fuel to empty the queue from the start state, because
every enqueued mask is clamped into `[0, 255]³` and enqueued at most once. -/
def SEARCH_FUEL : Nat := 16777216

/-- The initial best of the search: the identity mask, the empty sequence,
the projected start color and its distance to the target (lines
`best_mask, best_seq = start_mask, []` …). -/
def initBest (cfg : AppConfig) (target : Color) : SearchResult :=
  ⟨[], (255, 255, 255), apply_mask_to_color cfg.START_RGB (255, 255, 255),
   manhattan (apply_mask_to_color cfg.START_RGB (255, 255, 255)) target⟩

/-- Python `find_sequence_to_target(target_rgb, max_depth=None)`.  The
`max_depth=None` default falls back to `app.config["MAX_DEPTH"]`.  The
fuel-exhaustion fallback returns the initial best; `bfsRun_isSome_of_measure`
below shows it is never taken. -/
def find_sequence_to_target (cfg : AppConfig) (target_rgb : Color)
    (max_depth : Option ℤ) : SearchResult :=
  match bfsRun cfg target_rgb (max_depth.getD cfg.MAX_DEPTH) SEARCH_FUEL
      [((255, 255, 255), [])] {(255, 255, 255)} (initBest cfg target_rgb) with
  | some r => r.1
  | none => initBest cfg target_rgb

/-- The dequeue history of the same search run (empty in the dead
fuel-exhaustion branch). -/
def searchTrace (cfg : AppConfig) (target_rgb : Color)
    (max_depth : Option ℤ) : List Node :=
  match bfsRun cfg target_rgb (max_depth.getD cfg.MAX_DEPTH) SEARCH_FUEL
      [((255, 255, 255), [])] {(255, 255, 255)} (initBest cfg target_rgb) with
  | some r => r.2
  | none => []

/-- Replaying a dye sequence from the identity mask, one
`apply_dye_to_mask` per step. -/
def replayMask (cfg : AppConfig) (seq : List Dye) : Mask :=
  seq.foldl (apply_dye_to_mask cfg) (255, 255, 255)

/-- Componentwise bounds `0 ≤ channel ≤ 255`. -/
def inRange255 (c : ℤ × ℤ × ℤ) : Prop :=
  0 ≤ c.1 ∧ c.1 ≤ 255 ∧ 0 ≤ c.2.1 ∧ c.2.1 ≤ 255 ∧ 0 ≤ c.2.2 ∧ c.2.2 ≤ 255

instance (c : ℤ × ℤ × ℤ) : Decidable (inRange255 c) := by
  unfold inRange255; infer_instance

/-- The `before_request` hook `_sync_start_rgb_from_session`: if the session
holds a well-formed 3-tuple it overwrites `app.config["START_RGB"]`, else it
leaves the configuration unchanged (the `isinstance`/`int()` failure paths).
`none` stands for a missing or malformed session value. -/
def sync_start_rgb_from_session (cfg : AppConfig) (session_start : Option Color) :
    AppConfig :=
  match session_start with
  | some s => { cfg with START_RGB := s }
  | none => cfg

/-- The target parsing of the `home` route:
`try: target = (int(r), int(g), int(b)) except Exception: target = (0,0,0)`.
`none` stands for a field on which `int()` raises. -/
def home_parse_target (r g b : Option ℤ) : Color :=
  match r, g, b with
  | some x, some y, some z => (x, y, z)
  | _, _, _ => (0, 0, 0)

/-- The computation the `home` route performs on a POST: parse the target
with the silent `(0,0,0)` fallback, then run the search with the default
(config) depth. -/
def home_post (cfg : AppConfig) (r g b : Option ℤ) : SearchResult :=
  find_sequence_to_target cfg (home_parse_target r g b) none

/-- The box `[0,255]³` every enqueued mask lives in. -/
def MaskBox : Finset Mask :=
  (Finset.Icc (0 : ℤ) 255) ×ˢ ((Finset.Icc (0 : ℤ) 255) ×ˢ (Finset.Icc (0 : ℤ) 255))

-- ----------------------------------------------------------------------
-- Basic lemmas about the arithmetic helpers
-- ----------------------------------------------------------------------

theorem clamp255_nonneg (x : ℤ) : 0 ≤ clamp255 x := le_max_left 0 _

theorem clamp255_le (x : ℤ) : clamp255 x ≤ 255 :=
  max_le (by norm_num) (min_le_left 255 x)

theorem manhattan_nonneg (a b : Color) : 0 ≤ manhattan a b := by
  unfold manhattan
  have h1 := abs_nonneg (a.1 - b.1)
  have h2 := abs_nonneg (a.2.1 - b.2.1)
  have h3 := abs_nonneg (a.2.2 - b.2.2)
  omega

theorem manhattan_self (a : Color) : manhattan a a = 0 := by
  simp [manhattan]

theorem apply_mask_to_color_inRange (base : Color) (mask : Mask) :
    inRange255 (apply_mask_to_color base mask) := by
  unfold inRange255 apply_mask_to_color
  refine ⟨clamp255_nonneg _, clamp255_le _, clamp255_nonneg _, clamp255_le _,
    clamp255_nonneg _, clamp255_le _⟩

theorem apply_dye_inRange (cfg : AppConfig) (mask : Mask) (dye : Dye) :
    inRange255 (apply_dye_to_mask cfg mask dye) := by
  unfold inRange255 apply_dye_to_mask
  refine ⟨clamp255_nonneg _, clamp255_le _, clamp255_nonneg _, clamp255_le _,
    clamp255_nonneg _, clamp255_le _⟩

theorem mem_MaskBox_iff (m : Mask) : m ∈ MaskBox ↔ inRange255 m := by
  unfold MaskBox inRange255
  rcases m with ⟨a, b, c⟩
  simp only [Finset.mem_product, Finset.mem_Icc]
  tauto

theorem apply_dye_mem_MaskBox (cfg : AppConfig) (mask : Mask) (dye : Dye) :
    apply_dye_to_mask cfg mask dye ∈ MaskBox :=
  (mem_MaskBox_iff _).mpr (apply_dye_inRange cfg mask dye)

theorem card_MaskBox : MaskBox.card = 16777216 := by
  unfold MaskBox
  simp only [Finset.card_product, Int.card_Icc]
  rfl

-- ----------------------------------------------------------------------
-- Lemmas about the expansion fold (the `for dye in DYES:` loop)
-- ----------------------------------------------------------------------

/-- Every node in the queue after an expansion was already in the queue, or
is a freshly built child `(apply_dye_to_mask mask dye, seq ++ [dye])`. -/
theorem enqueue_foldl_nodes (cfg : AppConfig) (mask : Mask) (seq : List Dye) :
    ∀ (l : List Dye) (acc : List Node × Finset Mask) (nd : Node),
      nd ∈ (l.foldl (enqueueDye cfg mask seq) acc).1 →
      nd ∈ acc.1 ∨ ∃ dye : Dye, nd = (apply_dye_to_mask cfg mask dye, seq ++ [dye]) := by
  intro l
  induction l with
  | nil => intro acc nd h; exact Or.inl h
  | cons d l ih =>
    intro acc nd h
    rw [List.foldl_cons] at h
    rcases ih _ nd h with h1 | h2
    · unfold enqueueDye at h1
      split at h1
      · exact Or.inl h1
      · rcases List.mem_append.mp h1 with h3 | h4
        · exact Or.inl h3
        · exact Or.inr ⟨d, by simpa using h4⟩
    · exact Or.inr h2

/-- Expansion keeps the visited set inside the box `[0,255]³` and inserts
into the queue exactly as many nodes as it inserts into the visited set. -/
theorem enqueue_foldl_box (cfg : AppConfig) (mask : Mask) (seq : List Dye) :
    ∀ (l : List Dye) (acc : List Node × Finset Mask), acc.2 ⊆ MaskBox →
      (l.foldl (enqueueDye cfg mask seq) acc).2 ⊆ MaskBox ∧
      (l.foldl (enqueueDye cfg mask seq) acc).1.length + acc.2.card =
        acc.1.length + (l.foldl (enqueueDye cfg mask seq) acc).2.card := by
  intro l
  induction l with
  | nil => intro acc h; exact ⟨h, rfl⟩
  | cons d l ih =>
    intro acc hsub
    rw [List.foldl_cons]
    by_cases hmem : apply_dye_to_mask cfg mask d ∈ acc.2
    · have heq : enqueueDye cfg mask seq acc d = acc := by
        simp [enqueueDye, hmem]
      rw [heq]
      exact ih acc hsub
    · have heq : enqueueDye cfg mask seq acc d =
          (acc.1 ++ [(apply_dye_to_mask cfg mask d, seq ++ [d])],
           insert (apply_dye_to_mask cfg mask d) acc.2) := by
        simp [enqueueDye, hmem]
      rw [heq]
      have hsub' : insert (apply_dye_to_mask cfg mask d) acc.2 ⊆ MaskBox :=
        Finset.insert_subset (apply_dye_mem_MaskBox cfg mask d) hsub
      obtain ⟨h1, h2⟩ := ih (acc.1 ++ [(apply_dye_to_mask cfg mask d, seq ++ [d])],
        insert (apply_dye_to_mask cfg mask d) acc.2) hsub'
      refine ⟨h1, ?_⟩
      have hcard : (insert (apply_dye_to_mask cfg mask d) acc.2).card = acc.2.card + 1 :=
        Finset.card_insert_of_not_mem hmem
      simp only [List.length_append, List.length_cons, List.length_nil] at h2 ⊢
      omega

/-- Membership in `dropLast` of a cons-cell, split into head and tail. -/
theorem mem_dropLast_cons {α : Type} (a : α) (l : List α) (x : α)
    (h : x ∈ (a :: l).dropLast) : (x = a ∧ l ≠ []) ∨ x ∈ l.dropLast := by
  cases l with
  | nil => simp [List.dropLast] at h
  | cons b t =>
    have heq : (a :: b :: t).dropLast = a :: (b :: t).dropLast := rfl
    rw [heq] at h
    rcases List.mem_cons.mp h with h1 | h2
    · exact Or.inl ⟨h1, by simp⟩
    · exact Or.inr h2

-- ----------------------------------------------------------------------
-- Termination: the fuel `SEARCH_FUEL` always suffices
-- ----------------------------------------------------------------------

/-- The loop measure `(|MaskBox| - |visited|) + |queue|` bounds the number of
remaining iterations: masks are a finite discrete space and every enqueued
mask enters the visited set, so with at least that much fuel the run
completes (returns `some`). -/
theorem bfsRun_isSome_of_measure (cfg : AppConfig) (target : Color) (maxd : ℤ) :
    ∀ (fuel : Nat) (q : List Node) (vis : Finset Mask) (best : SearchResult),
      vis ⊆ MaskBox → MaskBox.card - vis.card + q.length ≤ fuel →
      (bfsRun cfg target maxd fuel q vis best).isSome = true := by
  intro fuel
  induction fuel with
  | zero =>
    intro q vis best hsub hm
    have hq : q.length = 0 := by omega
    rw [List.length_eq_zero.mp hq]
    simp [bfsRun]
  | succ n ih =>
    intro q vis best hsub hm
    cases q with
    | nil => simp [bfsRun]
    | cons hd rest =>
      obtain ⟨mask, seq⟩ := hd
      have hcard := Finset.card_le_card hsub
      simp only [List.length_cons] at hm
      rw [bfsRun]
      split
      · have hs := ih rest vis best hsub (by omega)
        cases hb : bfsRun cfg target maxd n rest vis best with
        | none => rw [hb] at hs; simp at hs
        | some r => simp [hb]
      · split
        · simp
        · obtain ⟨h1, h2⟩ := enqueue_foldl_box cfg mask seq DYES (rest, vis) hsub
          dsimp only at h2
          have hcard' := Finset.card_le_card h1
          have hs := ih (DYES.foldl (enqueueDye cfg mask seq) (rest, vis)).1
            (DYES.foldl (enqueueDye cfg mask seq) (rest, vis)).2
            (if manhattan (apply_mask_to_color cfg.START_RGB mask) target < best.diff then
              ⟨seq, mask, apply_mask_to_color cfg.START_RGB mask,
               manhattan (apply_mask_to_color cfg.START_RGB mask) target⟩
            else best)
            h1 (by omega)
          unfold expand
          cases hb : bfsRun cfg target maxd n
              (DYES.foldl (enqueueDye cfg mask seq) (rest, vis)).1
              (DYES.foldl (enqueueDye cfg mask seq) (rest, vis)).2
              (if manhattan (apply_mask_to_color cfg.START_RGB mask) target < best.diff then
                ⟨seq, mask, apply_mask_to_color cfg.START_RGB mask,
                 manhattan (apply_mask_to_color cfg.START_RGB mask) target⟩
              else best) with
          | none => rw [hb] at hs; simp at hs
          | some r => simp [hb]

-- ----------------------------------------------------------------------
-- The master loop invariant
-- ----------------------------------------------------------------------

/-- Invariant preservation along the search loop.  `Q` is a property of
queue nodes that children of evaluated (within-depth) nodes inherit;
`B` is a property of the best-so-far record that holds for the record built
from any evaluated node satisfying `Q`.  If all queued nodes satisfy `Q` and
the current best satisfies `B`, then the final best satisfies `B` and every
dequeued node satisfies `Q`. -/
theorem bfsRun_inv (cfg : AppConfig) (target : Color) (maxd : ℤ)
    (Q : Node → Prop) (B : SearchResult → Prop)
    (hchild : ∀ (mask : Mask) (seq : List Dye) (dye : Dye), Q (mask, seq) →
      ¬((seq.length : ℤ) > maxd) → Q (apply_dye_to_mask cfg mask dye, seq ++ [dye]))
    (hupd : ∀ (mask : Mask) (seq : List Dye), Q (mask, seq) →
      ¬((seq.length : ℤ) > maxd) →
      B ⟨seq, mask, apply_mask_to_color cfg.START_RGB mask,
         manhattan (apply_mask_to_color cfg.START_RGB mask) target⟩) :
    ∀ (fuel : Nat) (q : List Node) (vis : Finset Mask) (best : SearchResult)
      (r : SearchResult × List Node),
      (∀ nd ∈ q, Q nd) → B best →
      bfsRun cfg target maxd fuel q vis best = some r →
      B r.1 ∧ ∀ nd ∈ r.2, Q nd := by
  intro fuel
  induction fuel with
  | zero =>
    intro q vis best r hq hb hrun
    rw [bfsRun] at hrun
    split at hrun
    · obtain rfl := Option.some.inj hrun
      exact ⟨hb, by simp⟩
    · exact absurd hrun (by simp)
  | succ n ih =>
    intro q vis best r hq hb hrun
    cases q with
    | nil =>
      rw [bfsRun] at hrun
      obtain rfl := Option.some.inj hrun
      exact ⟨hb, by simp⟩
    | cons hd rest =>
      obtain ⟨mask, seq⟩ := hd
      have hqrest : ∀ nd ∈ rest, Q nd := fun nd h => hq nd (List.mem_cons_of_mem _ h)
      have hqhd : Q (mask, seq) := hq _ (List.mem_cons_self _ _)
      rw [bfsRun] at hrun
      by_cases hskip : (seq.length : ℤ) > maxd
      · rw [if_pos hskip] at hrun
        cases hrec : bfsRun cfg target maxd n rest vis best with
        | none => rw [hrec] at hrun; simp at hrun
        | some r' =>
          rw [hrec] at hrun
          simp only [Option.map_some'] at hrun
          obtain rfl := Option.some.inj hrun
          obtain ⟨hB, hT⟩ := ih rest vis best r' hqrest hb hrec
          refine ⟨hB, ?_⟩
          intro nd hnd
          rcases List.mem_cons.mp hnd with h1 | h2
          · exact h1 ▸ hqhd
          · exact hT nd h2
      · rw [if_neg hskip] at hrun
        by_cases hbreak : manhattan (apply_mask_to_color cfg.START_RGB mask) target < best.diff ∧
            manhattan (apply_mask_to_color cfg.START_RGB mask) target = 0
        · rw [if_pos hbreak] at hrun
          obtain rfl := Option.some.inj hrun
          refine ⟨hupd mask seq hqhd hskip, ?_⟩
          intro nd hnd
          rcases List.mem_cons.mp hnd with h1 | h2
          · exact h1 ▸ hqhd
          · simp at h2
        · rw [if_neg hbreak] at hrun
          have hq' : ∀ nd ∈ (expand cfg mask seq rest vis).1, Q nd := by
            intro nd hnd
            rcases enqueue_foldl_nodes cfg mask seq DYES (rest, vis) nd hnd with h1 | ⟨dye, rfl⟩
            · exact hqrest nd h1
            · exact hchild mask seq dye hqhd hskip
          have hb' : B (if manhattan (apply_mask_to_color cfg.START_RGB mask) target < best.diff then
              ⟨seq, mask, apply_mask_to_color cfg.START_RGB mask,
               manhattan (apply_mask_to_color cfg.START_RGB mask) target⟩
            else best) := by
            by_cases hlt : manhattan (apply_mask_to_color cfg.START_RGB mask) target < best.diff
            · rw [if_pos hlt]; exact hupd mask seq hqhd hskip
            · rw [if_neg hlt]; exact hb
          cases hrec : bfsRun cfg target maxd n
              (expand cfg mask seq rest vis).1 (expand cfg mask seq rest vis).2
              (if manhattan (apply_mask_to_color cfg.START_RGB mask) target < best.diff then
                ⟨seq, mask, apply_mask_to_color cfg.START_RGB mask,
                 manhattan (apply_mask_to_color cfg.START_RGB mask) target⟩
              else best) with
          | none => rw [hrec] at hrun; simp at hrun
          | some r' =>
            rw [hrec] at hrun
            simp only [Option.map_some'] at hrun
            obtain rfl := Option.some.inj hrun
            obtain ⟨hB, hT⟩ := ih _ _ _ r' hq' hb' hrec
            refine ⟨hB, ?_⟩
            intro nd hnd
            rcases List.mem_cons.mp hnd with h1 | h2
            · exact h1 ▸ hqhd
            · exact hT nd h2

/-- If the best distance is already 0 when the loop is entered, no node can
strictly improve on it (distances are nonnegative), so the best record is
never replaced: the run returns it unchanged.  Note that the loop does NOT
stop early in this situation — the `break` is guarded by `diff < best_diff`. -/
theorem bfsRun_best_zero (cfg : AppConfig) (target : Color) (maxd : ℤ) :
    ∀ (fuel : Nat) (q : List Node) (vis : Finset Mask) (best : SearchResult)
      (r : SearchResult × List Node), best.diff = 0 →
      bfsRun cfg target maxd fuel q vis best = some r → r.1 = best := by
  intro fuel
  induction fuel with
  | zero =>
    intro q vis best r hb hrun
    rw [bfsRun] at hrun
    split at hrun
    · obtain rfl := Option.some.inj hrun; rfl
    · exact absurd hrun (by simp)
  | succ n ih =>
    intro q vis best r hb hrun
    cases q with
    | nil =>
      rw [bfsRun] at hrun
      obtain rfl := Option.some.inj hrun; rfl
    | cons hd rest =>
      obtain ⟨mask, seq⟩ := hd
      have hnlt : ¬ manhattan (apply_mask_to_color cfg.START_RGB mask) target < best.diff := by
        have := manhattan_nonneg (apply_mask_to_color cfg.START_RGB mask) target
        omega
      rw [bfsRun] at hrun
      by_cases hskip : (seq.length : ℤ) > maxd
      · rw [if_pos hskip] at hrun
        cases hrec : bfsRun cfg target maxd n rest vis best with
        | none => rw [hrec] at hrun; simp at hrun
        | some r' =>
          rw [hrec] at hrun
          simp only [Option.map_some'] at hrun
          obtain rfl := Option.some.inj hrun
          exact ih rest vis best r' hb hrec
      · rw [if_neg hskip] at hrun
        rw [if_neg (fun h => hnlt h.1 :
          ¬(manhattan (apply_mask_to_color cfg.START_RGB mask) target < best.diff ∧
            manhattan (apply_mask_to_color cfg.START_RGB mask) target = 0))] at hrun
        rw [if_neg hnlt] at hrun
        cases hrec : bfsRun cfg target maxd n
            (expand cfg mask seq rest vis).1 (expand cfg mask seq rest vis).2 best with
        | none => rw [hrec] at hrun; simp at hrun
        | some r' =>
          rw [hrec] at hrun
          simp only [Option.map_some'] at hrun
          obtain rfl := Option.some.inj hrun
          exact ih _ _ _ r' hb hrec

/-- If the loop is entered with a strictly positive best distance, then every
dequeued node except possibly the last one that is within the depth bound
projects to a color at nonzero distance from the target: the first evaluated
exact match (if any) ends the loop at once. -/
theorem bfsRun_trace_no_exact (cfg : AppConfig) (target : Color) (maxd : ℤ) :
    ∀ (fuel : Nat) (q : List Node) (vis : Finset Mask) (best : SearchResult)
      (r : SearchResult × List Node), 0 < best.diff →
      bfsRun cfg target maxd fuel q vis best = some r →
      ∀ nd ∈ r.2.dropLast, ¬((nd.2.length : ℤ) > maxd) →
        manhattan (apply_mask_to_color cfg.START_RGB nd.1) target ≠ 0 := by
  intro fuel
  induction fuel with
  | zero =>
    intro q vis best r hb hrun
    rw [bfsRun] at hrun
    split at hrun
    · obtain rfl := Option.some.inj hrun
      intro nd hnd
      simp at hnd
    · exact absurd hrun (by simp)
  | succ n ih =>
    intro q vis best r hb hrun
    cases q with
    | nil =>
      rw [bfsRun] at hrun
      obtain rfl := Option.some.inj hrun
      intro nd hnd
      simp at hnd
    | cons hd rest =>
      obtain ⟨mask, seq⟩ := hd
      rw [bfsRun] at hrun
      by_cases hskip : (seq.length : ℤ) > maxd
      · rw [if_pos hskip] at hrun
        cases hrec : bfsRun cfg target maxd n rest vis best with
        | none => rw [hrec] at hrun; simp at hrun
        | some r' =>
          rw [hrec] at hrun
          simp only [Option.map_some'] at hrun
          obtain rfl := Option.some.inj hrun
          intro nd hnd hlen
          rcases mem_dropLast_cons _ _ _ hnd with ⟨rfl, -⟩ | h2
          · exact absurd hskip hlen
          · exact ih rest vis best r' hb hrec nd h2 hlen
      · rw [if_neg hskip] at hrun
        by_cases hbreak : manhattan (apply_mask_to_color cfg.START_RGB mask) target < best.diff ∧
            manhattan (apply_mask_to_color cfg.START_RGB mask) target = 0
        · rw [if_pos hbreak] at hrun
          obtain rfl := Option.some.inj hrun
          intro nd hnd
          simp [List.dropLast] at hnd
        · rw [if_neg hbreak] at hrun
          have hb' : 0 < (if manhattan (apply_mask_to_color cfg.START_RGB mask) target < best.diff then
              (⟨seq, mask, apply_mask_to_color cfg.START_RGB mask,
                manhattan (apply_mask_to_color cfg.START_RGB mask) target⟩ : SearchResult)
            else best).diff := by
            by_cases hlt : manhattan (apply_mask_to_color cfg.START_RGB mask) target < best.diff
            · rw [if_pos hlt]
              have hnn := manhattan_nonneg (apply_mask_to_color cfg.START_RGB mask) target
              have hne : manhattan (apply_mask_to_color cfg.START_RGB mask) target ≠ 0 :=
                fun h0 => hbreak ⟨hlt, h0⟩
              dsimp only
              omega
            · rw [if_neg hlt]; exact hb
          cases hrec : bfsRun cfg target maxd n
              (expand cfg mask seq rest vis).1 (expand cfg mask seq rest vis).2
              (if manhattan (apply_mask_to_color cfg.START_RGB mask) target < best.diff then
                ⟨seq, mask, apply_mask_to_color cfg.START_RGB mask,
                 manhattan (apply_mask_to_color cfg.START_RGB mask) target⟩
              else best) with
          | none => rw [hrec] at hrun; simp at hrun
          | some r' =>
            rw [hrec] at hrun
            simp only [Option.map_some'] at hrun
            obtain rfl := Option.some.inj hrun
            intro nd hnd hlen
            rcases mem_dropLast_cons _ _ _ hnd with ⟨rfl, -⟩ | h2
            · intro h0
              dsimp only at h0
              exact hbreak ⟨by rw [h0]; exact hb, h0⟩
            · exact ih _ _ _ r' hb' hrec nd h2 hlen

/-- The loop never reads `MAX_DEPTH` (the depth bound is resolved once,
before the loop): runs under configurations differing only in `MAX_DEPTH`
coincide. -/
theorem bfsRun_MAX_DEPTH_irrel (s : Color) (a b md md' : ℤ) (target : Color) (maxd : ℤ) :
    ∀ (fuel : Nat) (q : List Node) (vis : Finset Mask) (best : SearchResult),
      bfsRun ⟨s, a, b, md⟩ target maxd fuel q vis best =
        bfsRun ⟨s, a, b, md'⟩ target maxd fuel q vis best := by
  intro fuel
  induction fuel with
  | zero => intro q vis best; rfl
  | succ n ih =>
    intro q vis best
    cases q with
    | nil => rfl
    | cons hd rest =>
      obtain ⟨mask, seq⟩ := hd
      rw [bfsRun, bfsRun]
      simp only [ih]
      rw [show expand ⟨s, a, b, md⟩ = expand (⟨s, a, b, md'⟩ : AppConfig) from rfl]

-- ----------------------------------------------------------------------
-- Bridging the loop lemmas to `find_sequence_to_target` / `searchTrace`
-- ----------------------------------------------------------------------

/-- From the search's start state (`q = [identity]`, `visited = {identity}`)
the fuel `SEARCH_FUEL` always suffices: the run returns `some`. -/
theorem bfsRun_start_some (cfg : AppConfig) (target : Color) (maxd : ℤ) :
    ∃ r : SearchResult × List Node,
      bfsRun cfg target maxd SEARCH_FUEL
        [((255, 255, 255), [])] {(255, 255, 255)} (initBest cfg target) = some r := by
  have hsub : ({((255 : ℤ), (255 : ℤ), (255 : ℤ))} : Finset Mask) ⊆ MaskBox := by
    intro x hx
    rw [Finset.mem_singleton] at hx
    rw [hx, mem_MaskBox_iff]
    unfold inRange255
    norm_num
  have hm : MaskBox.card - ({((255 : ℤ), (255 : ℤ), (255 : ℤ))} : Finset Mask).card +
      ([(((255 : ℤ), (255 : ℤ), (255 : ℤ)), ([] : List Dye))] : List Node).length ≤
        SEARCH_FUEL := by
    rw [card_MaskBox, Finset.card_singleton]
    unfold SEARCH_FUEL
    simp
  have hs := bfsRun_isSome_of_measure cfg target maxd SEARCH_FUEL
    [((255, 255, 255), [])] {(255, 255, 255)} (initBest cfg target) hsub hm
  cases hb : bfsRun cfg target maxd SEARCH_FUEL
      [((255, 255, 255), [])] {(255, 255, 255)} (initBest cfg target) with
  | none => rw [hb] at hs; simp at hs
  | some r => exact ⟨r, rfl⟩

/-- The returned result and trace come from the (always successful) run. -/
theorem find_searchTrace_spec (cfg : AppConfig) (target : Color) (d : Option ℤ) :
    ∃ r : SearchResult × List Node,
      bfsRun cfg target (d.getD cfg.MAX_DEPTH) SEARCH_FUEL
        [((255, 255, 255), [])] {(255, 255, 255)} (initBest cfg target) = some r ∧
      find_sequence_to_target cfg target d = r.1 ∧
      searchTrace cfg target d = r.2 := by
  obtain ⟨r, hr⟩ := bfsRun_start_some cfg target (d.getD cfg.MAX_DEPTH)
  refine ⟨r, hr, ?_, ?_⟩
  · unfold find_sequence_to_target
    rw [hr]
  · unfold searchTrace
    rw [hr]

/-- Iterating `apply_dye_to_mask` preserves the channel bounds. -/
theorem foldl_apply_dye_inRange (cfg : AppConfig) :
    ∀ (l : List Dye) (m : Mask), inRange255 m →
      inRange255 (l.foldl (apply_dye_to_mask cfg) m) := by
  intro l
  induction l with
  | nil => intro m h; exact h
  | cons d l ih =>
    intro m h
    rw [List.foldl_cons]
    exact ih _ (apply_dye_inRange cfg m d)

-- ----------------------------------------------------------------------
-- Claim theorems
-- ----------------------------------------------------------------------

/-- C1 (amended).  The loop breaks only when a dequeued node's distance is 0
AND strictly below the current best distance.  Hence, provided the start
node's own distance is nonzero, every dequeued node except possibly the last
one that lies within the depth bound has nonzero distance: the first
evaluated exact match ends the search at once.  (When the start distance is
already 0 the loop does not stop early; see the counterexample.) -/
theorem claim_C1_early_termination :
    ∀ (cfg : AppConfig) (target : Color) (d : Option ℤ),
      manhattan (apply_mask_to_color cfg.START_RGB (255, 255, 255)) target ≠ 0 →
      ∀ nd ∈ (searchTrace cfg target d).dropLast,
        ¬((nd.2.length : ℤ) > d.getD cfg.MAX_DEPTH) →
        manhattan (apply_mask_to_color cfg.START_RGB nd.1) target ≠ 0 := by
  intro cfg target d h
  obtain ⟨r, hr, -, htr⟩ := find_searchTrace_spec cfg target d
  rw [htr]
  have hpos : 0 < (initBest cfg target).diff := by
    have hnn := manhattan_nonneg (apply_mask_to_color cfg.START_RGB (255, 255, 255)) target
    show 0 < manhattan (apply_mask_to_color cfg.START_RGB (255, 255, 255)) target
    omega
  exact bfsRun_trace_no_exact cfg target (d.getD cfg.MAX_DEPTH) SEARCH_FUEL _ _ _ r hpos hr

/-- C1, claim as stated is false: with the default base `(241,219,29)` and
the target equal to the start projection, the start node (dequeued first,
within the depth bound, distance exactly 0) does NOT end the search: four
further nodes are dequeued after it (the trace has five entries). -/
theorem claim_C1_counterexample :
    manhattan (apply_mask_to_color ((241 : ℤ), (219 : ℤ), (29 : ℤ)) (255, 255, 255))
        (241, 219, 29) = 0 ∧
    (searchTrace ⟨(241, 219, 29), 32, 16, 0⟩ (241, 219, 29) none).head? =
      some ((255, 255, 255), []) ∧
    (searchTrace ⟨(241, 219, 29), 32, 16, 0⟩ (241, 219, 29) none).length = 5 := by
  refine ⟨by decide, by decide, by decide⟩

/-- C1 witness: a run whose start distance is nonzero (base `(241,219,29)`,
target `(0,0,0)`, depth bound 1); the dequeued node `((255,239,239), [red])`
is within the bound, is not the last dequeued node, and indeed has nonzero
distance. -/
theorem claim_C1_early_termination_witness :
    manhattan (apply_mask_to_color ((241 : ℤ), (219 : ℤ), (29 : ℤ)) (255, 255, 255))
        (0, 0, 0) ≠ 0 ∧
    manhattan (apply_mask_to_color ((241 : ℤ), (219 : ℤ), (29 : ℤ)) (255, 239, 239))
        (0, 0, 0) ≠ 0 :=
  ⟨by decide,
   claim_C1_early_termination ⟨(241, 219, 29), 32, 16, 1⟩ (0, 0, 0) none (by decide)
     ((255, 239, 239), [Dye.red]) (by decide) (by decide)⟩

/-- C2 (amended).  With the ambient configuration made explicit, the search
output is a function of exactly `(START_RGB, ADD_VALUE, SUB_VALUE, target,
depth bound)`: when the depth bound is passed explicitly, the remaining
configuration entry `MAX_DEPTH` is irrelevant. -/
theorem claim_C2_output_function_of_inputs :
    ∀ (s : Color) (a b md md' : ℤ) (target : Color) (db : ℤ),
      find_sequence_to_target ⟨s, a, b, md⟩ target (some db) =
        find_sequence_to_target ⟨s, a, b, md'⟩ target (some db) := by
  intro s a b md md' target db
  unfold find_sequence_to_target
  rw [show ((some db).getD (AppConfig.mk s a b md).MAX_DEPTH) = db from rfl,
    show ((some db).getD (AppConfig.mk s a b md').MAX_DEPTH) = db from rfl,
    show initBest ⟨s, a, b, md⟩ target = initBest ⟨s, a, b, md'⟩ target from rfl,
    bfsRun_MAX_DEPTH_irrel s a b md md' target db SEARCH_FUEL]

/-- C2, claim as stated is false: the search reads `START_RGB` from the
ambient mutable `app.config`, which the `before_request` session hook
rewrites; two calls with identical declared inputs (target `(241,219,29)`,
default depth) return different results when the session start color was
mutated in between. -/
theorem claim_C2_counterexample :
    find_sequence_to_target
        (sync_start_rgb_from_session ⟨(241, 219, 29), 32, 16, 0⟩ none)
        (241, 219, 29) none ≠
      find_sequence_to_target
        (sync_start_rgb_from_session ⟨(241, 219, 29), 32, 16, 0⟩ (some (0, 0, 0)))
        (241, 219, 29) none := by
  decide

/-- C3 (code bug).  The `home` route never rejects bad input: a non-numeric
target field is silently replaced by `(0, 0, 0)` and the search runs anyway;
an out-of-range target channel (here 999) is passed through to the search
unvalidated.  No typed validation error exists anywhere in the code. -/
theorem claim_C3_silent_default :
    home_parse_target none (some 10) (some 10) = (0, 0, 0) ∧
    home_post ⟨(241, 219, 29), 32, 16, 0⟩ none (some 10) (some 10) =
      ⟨[], (255, 255, 255), (241, 219, 29), 489⟩ ∧
    find_sequence_to_target ⟨(241, 219, 29), 32, 16, 0⟩ (999, 0, 0) none =
      ⟨[], (255, 255, 255), (241, 219, 29), 1006⟩ := by
  refine ⟨rfl, by decide, by decide⟩

/-- C4.  If the target equals the projection of the base color through the
identity mask, the search returns the empty sequence, the identity mask,
that color and distance 0 — for every configuration and every depth bound
(including 0 and even negative ones). -/
theorem claim_C4_exact_match_short_circuit :
    ∀ (cfg : AppConfig) (target : Color) (d : Option ℤ),
      target = apply_mask_to_color cfg.START_RGB (255, 255, 255) →
      find_sequence_to_target cfg target d = ⟨[], (255, 255, 255), target, 0⟩ := by
  intro cfg target d h
  obtain ⟨r, hr, hfind, -⟩ := find_searchTrace_spec cfg target d
  have hz : (initBest cfg target).diff = 0 := by
    show manhattan (apply_mask_to_color cfg.START_RGB (255, 255, 255)) target = 0
    rw [← h, manhattan_self]
  have hbest := bfsRun_best_zero cfg target (d.getD cfg.MAX_DEPTH) SEARCH_FUEL
    _ _ _ r hz hr
  rw [hfind, hbest]
  show initBest cfg target = _
  unfold initBest
  rw [← h, manhattan_self]

/-- C4 witness: the default base `(241,219,29)` with target `(241,219,29)`
and depth bound 0. -/
theorem claim_C4_exact_match_short_circuit_witness :
    ((241 : ℤ), (219 : ℤ), (29 : ℤ)) =
      apply_mask_to_color ((241 : ℤ), (219 : ℤ), (29 : ℤ)) (255, 255, 255) ∧
    find_sequence_to_target ⟨(241, 219, 29), 32, 16, 48⟩ (241, 219, 29) (some 0) =
      ⟨[], (255, 255, 255), (241, 219, 29), 0⟩ :=
  ⟨by decide,
   claim_C4_exact_match_short_circuit ⟨(241, 219, 29), 32, 16, 48⟩ (241, 219, 29)
     (some 0) (by decide)⟩

/-- C5.  For every nonnegative depth bound the returned sequence is no longer
than the bound; with bound 0 the returned sequence is empty and the only
dequeued node with an empty sequence (the only node evaluated for
best-tracking at bound 0) is the start node. -/
theorem claim_C5_depth_bound :
    ∀ (cfg : AppConfig) (target : Color) (maxd : ℤ), 0 ≤ maxd →
      ((find_sequence_to_target cfg target (some maxd)).seq.length : ℤ) ≤ maxd ∧
      (maxd = 0 →
        (find_sequence_to_target cfg target (some maxd)).seq = [] ∧
        ∀ nd ∈ searchTrace cfg target (some maxd),
          nd.2 = [] → nd = ((255, 255, 255), [])) := by
  intro cfg target maxd h0
  obtain ⟨r, hr, hfind, htr⟩ := find_searchTrace_spec cfg target (some maxd)
  have hlen : ((find_sequence_to_target cfg target (some maxd)).seq.length : ℤ) ≤ maxd := by
    rw [hfind]
    exact (bfsRun_inv cfg target ((some maxd).getD cfg.MAX_DEPTH)
      (fun nd => (nd.2.length : ℤ) ≤ maxd + 1)
      (fun bst => (bst.seq.length : ℤ) ≤ maxd)
      (fun mask seq dye hQ hle => by
        have hle2 : ¬((seq.length : ℤ) > maxd) := hle
        show (((seq ++ [dye]).length : ℕ) : ℤ) ≤ maxd + 1
        simp only [List.length_append, List.length_cons, List.length_nil]
        push_cast
        omega)
      (fun mask seq hQ hle => by
        have hle2 : ¬((seq.length : ℤ) > maxd) := hle
        show ((seq.length : ℕ) : ℤ) ≤ maxd
        omega)
      SEARCH_FUEL _ _ _ r
      (fun nd hnd => by
        rw [List.mem_singleton] at hnd
        rw [hnd]
        show ((([] : List Dye).length : ℕ) : ℤ) ≤ maxd + 1
        simp
        omega)
      (by
        show ((([] : List Dye).length : ℕ) : ℤ) ≤ maxd
        simpa using h0)
      hr).1
  refine ⟨hlen, fun hz => ?_⟩
  subst hz
  refine ⟨?_, ?_⟩
  · have hn : (find_sequence_to_target cfg target (some 0)).seq.length = 0 := by omega
    exact List.length_eq_zero.mp hn
  · rw [htr]
    exact (bfsRun_inv cfg target ((some (0 : ℤ)).getD cfg.MAX_DEPTH)
      (fun nd => nd.2 = [] → nd = ((255, 255, 255), []))
      (fun _ => True)
      (fun mask seq dye hQ hle => by
        intro hcontra
        exact absurd hcontra (by simp))
      (fun _ _ _ _ => trivial)
      SEARCH_FUEL _ _ _ r
      (fun nd hnd => by
        rw [List.mem_singleton] at hnd
        intro hh
        rw [hnd])
      trivial hr).2

/-- C5 witness: the default configuration, target `(0,0,0)`, depth bound 0:
the hypothesis `0 ≤ 0` holds and the returned sequence has length 0. -/
theorem claim_C5_depth_bound_witness :
    (0 : ℤ) ≤ 0 ∧
    ((find_sequence_to_target ⟨(241, 219, 29), 32, 16, 48⟩ (0, 0, 0)
        (some 0)).seq.length : ℤ) ≤ 0 :=
  ⟨by decide,
   (claim_C5_depth_bound ⟨(241, 219, 29), 32, 16, 48⟩ (0, 0, 0) 0 (by decide)).1⟩

/-- C6.  Replaying the returned sequence from the identity mask, one
`apply_dye_to_mask` per step with the same configuration's add/sub
constants, reproduces exactly the returned best mask. -/
theorem claim_C6_replay :
    ∀ (cfg : AppConfig) (target : Color) (d : Option ℤ),
      replayMask cfg (find_sequence_to_target cfg target d).seq =
        (find_sequence_to_target cfg target d).mask := by
  intro cfg target d
  obtain ⟨r, hr, hfind, -⟩ := find_searchTrace_spec cfg target d
  rw [hfind]
  exact (bfsRun_inv cfg target (d.getD cfg.MAX_DEPTH)
    (fun nd => replayMask cfg nd.2 = nd.1)
    (fun bst => replayMask cfg bst.seq = bst.mask)
    (fun mask seq dye hQ hle => by
      have hQ2 : replayMask cfg seq = mask := hQ
      show replayMask cfg (seq ++ [dye]) = apply_dye_to_mask cfg mask dye
      unfold replayMask at hQ2 ⊢
      rw [List.foldl_append, hQ2]
      rfl)
    (fun mask seq hQ hle => hQ)
    SEARCH_FUEL _ _ _ r
    (fun nd hnd => by
      rw [List.mem_singleton] at hnd
      rw [hnd]
      rfl)
    rfl hr).1

/-- C7.  Every mask reachable from the identity mask by iterated
`apply_dye_to_mask` and every color produced by `apply_mask_to_color` has
all three channels in `[0, 255]`, for arbitrary (any sign, any magnitude)
add/sub constants: each per-channel arithmetic step is clamped at once. -/
theorem claim_C7_clamping_invariant :
    ∀ (cfg : AppConfig) (seq : List Dye) (base : Color) (mask : Mask),
      inRange255 (replayMask cfg seq) ∧ inRange255 (apply_mask_to_color base mask) := by
  intro cfg seq base mask
  refine ⟨?_, apply_mask_to_color_inRange base mask⟩
  unfold replayMask
  exact foldl_apply_dye_inRange cfg seq (255, 255, 255) (by decide)

/-- C8.  The dye deltas: red `(+add, -sub, -sub)`, green `(-sub, +add,
-sub)`, blue `(-sub, -sub, +add)`, and black the fixed `(-32, -32, -32)`,
independent of the configured constants. -/
theorem claim_C8_dye_vector :
    ∀ (add_val sub_val : ℤ),
      dye_vector Dye.red add_val sub_val = (add_val, -sub_val, -sub_val) ∧
      dye_vector Dye.green add_val sub_val = (-sub_val, add_val, -sub_val) ∧
      dye_vector Dye.blue add_val sub_val = (-sub_val, -sub_val, add_val) ∧
      dye_vector Dye.black add_val sub_val = (-32, -32, -32) :=
  fun _ _ => ⟨rfl, rfl, rfl, rfl⟩

/-- C9.  For every configuration, target and depth bound (however large or
even ignored), running the loop from the start state with `SEARCH_FUEL`
iterations of fuel completes: the mask space is contained in the finite box
`[0,255]³`, every enqueued mask enters the visited set, so the queue
empties (or the loop breaks) after finitely many dequeues. -/
theorem claim_C9_termination :
    ∀ (cfg : AppConfig) (target : Color) (maxd : ℤ),
      ∃ r : SearchResult × List Node,
        bfsRun cfg target maxd SEARCH_FUEL
          [((255, 255, 255), [])] {(255, 255, 255)} (initBest cfg target) = some r :=
  fun cfg target maxd => bfsRun_start_some cfg target maxd

/-- C10.  The four components of the returned result always describe one and
the same node: the color is the projection of the mask through the base
color, and the distance is the Manhattan distance of that color to the
target. -/
theorem claim_C10_result_consistent :
    ∀ (cfg : AppConfig) (target : Color) (d : Option ℤ),
      (find_sequence_to_target cfg target d).color =
        apply_mask_to_color cfg.START_RGB (find_sequence_to_target cfg target d).mask ∧
      (find_sequence_to_target cfg target d).diff =
        manhattan (find_sequence_to_target cfg target d).color target := by
  intro cfg target d
  obtain ⟨r, hr, hfind, -⟩ := find_searchTrace_spec cfg target d
  rw [hfind]
  exact (bfsRun_inv cfg target (d.getD cfg.MAX_DEPTH)
    (fun _ => True)
    (fun bst => bst.color = apply_mask_to_color cfg.START_RGB bst.mask ∧
      bst.diff = manhattan bst.color target)
    (fun _ _ _ _ _ => trivial)
    (fun mask seq _ _ => ⟨rfl, rfl⟩)
    SEARCH_FUEL _ _ _ r (fun _ _ => trivial) ⟨rfl, rfl⟩ hr).1
